import Mathlib

/-!
Verification of the measurement execution engine of the Instruments
repository (`measurement/experiment.py` and
`measurement/fastscan/threadmanager.py`) against its natural-language
specification.  Python code is shallowly embedded: pure computations become
Lean functions over `ℚ`/`ℕ`/`ℤ`, stateful loops become explicit folds,
fallible calls return `Except`/pairs with an effect trace.  NumPy/xarray
floating point arithmetic is modelled over the rationals; comparisons of the
form `|x| < c * std` (whose right-hand side involves a square root) are
embedded as the equivalent squared comparison `x^2 < c^2 * var`, and the
bridge to the square-root formulation is proved over `ℝ`.
-/

/- ------------------------------------------------------------------ -/
/- Generic list helpers used by several embeddings.                    -/
/- ------------------------------------------------------------------ -/

/-- Arithmetic mean of a list of rationals (`np.mean`); `0` on the empty
list (where NumPy would give `nan`). -/
def listMean (l : List ℚ) : ℚ := l.sum / l.length

/-- Population variance of a list of rationals: the square of `np.std`. -/
def listVar (l : List ℚ) : ℚ :=
  ((l.map (fun x => (x - listMean l) ^ 2)).sum) / l.length

/-- The last `n` elements of a list. -/
def lastN (n : ℕ) (l : List α) : List α := l.drop (l.length - n)

/-- Start index selected by the Python slice `l[s:]` for a (possibly
negative) integer `s` on a sequence of length `len`. -/
def pyStart (s : ℤ) (len : ℕ) : ℕ :=
  if s < 0 then len - (-s).toNat else min s.toNat len

/-- The Python slice `l[s:]`. -/
def pySliceFrom (s : ℤ) (l : List α) : List α := l.drop (pyStart s l.length)

/-- `np.linspace a b n` with the default `endpoint=True`. -/
def linspaceQ (a b : ℚ) (n : ℕ) : List ℚ :=
  if n = 0 then []
  else if n = 1 then [a]
  else (List.range n).map (fun i : ℕ => a + (i : ℚ) * (b - a) / ((n : ℚ) - 1))

/- ------------------------------------------------------------------ -/
/- measurement/experiment.py : sweep worker                            -/
/- ------------------------------------------------------------------ -/

/-- Modelled from the spec: `utilities.misc.iterate_ranges` is imported by
`experiment.py` but its source is not in the repository snapshot.  Spec
section 4.2 defines it as odometer order: every coordinate tuple in
lexicographic order, the last (innermost) dimension advancing fastest,
e.g. lengths `[2,3]` give `(0,0),(0,1),(0,2),(1,0),(1,1),(1,2)`. -/
def odometer : List ℕ → List (List ℕ)
  | [] => [[]]
  | l :: ls => (List.range l).flatMap (fun i => (odometer ls).map (i :: ·))

/-- `Worker.set_parameters`, inner loop.  `cur` is `self.current_index`
(initialised to `-1` for each dimension), `idx` the coordinate tuple for
this iteration, `i` the enumeration counter.  For each dimension whose
coordinate differs from `current_index[i]` the bound setter is invoked
(recorded in the returned call list) and — exactly as in the source —
`current_index[i]` is incremented by one (`self.current_index[i] += 1`),
not set to the new coordinate. -/
def setParametersAux : List ℤ → List ℕ → ℕ → List ℤ × List ℕ
  | [], _, _ => ([], [])
  | c :: cs, [], _ => (c :: cs, [])
  | c :: cs, j :: js, i =>
    let r := setParametersAux cs js (i + 1)
    if (j : ℤ) ≠ c then ((c + 1) :: r.1, i :: r.2) else (c :: r.1, r.2)

/-- `Worker.set_parameters indexes`: returns the updated
`current_index` list and the list of dimensions whose setter was called. -/
def set_parameters (cur : List ℤ) (idx : List ℕ) : List ℤ × List ℕ :=
  setParametersAux cur idx 0

/-- The setter-call trace of `Worker.work` over a full uninterrupted sweep
with dimension lengths `lens`: for every coordinate tuple in odometer
order, the tuple together with the dimensions whose setter
`set_parameters` invoked there.  `current_index` starts as `[-1, …, -1]`. -/
def sweepRun (lens : List ℕ) : List (List ℕ × List ℕ) :=
  ((odometer lens).foldl
    (fun (acc : List ℤ × List (List ℕ × List ℕ)) t =>
      let r := set_parameters acc.1 t
      (r.1, acc.2 ++ [(t, r.2)]))
    (List.replicate lens.length (-1), [])).2

/-- What the claim (and the source's own docstring) say `set_parameters`
does: call the setter of dimension `i` exactly when its coordinate differs
from the coordinate last applied for it.  The per-tuple call list under
that rule, given the previous tuple (`none` before the first tuple). -/
def claimedCalls (prev : Option (List ℕ)) (t : List ℕ) : List ℕ :=
  match prev with
  | none => List.range t.length
  | some p => (List.range t.length).filter (fun i => t.getD i 0 ≠ p.getD i 0)

/-- `Experiment.create_file`: the file-existence/replace check followed by
creation of the four top-level groups.  The source raises
`NameError('name already exists, please change.')` when the target exists
AND `replace` is true (`if os.path.isfile(filename) and replace`), and
otherwise opens the file in `'w'` mode (creating or overwriting it) and
creates the groups. -/
def create_file (fileExists replace : Bool) : Except String (List String) :=
  if fileExists && replace then
    Except.error "name already exists, please change."
  else
    Except.ok ["raw_data", "settings", "axes", "metadata"]

/-- An instrument as seen by `hasattr`/`getattr`: the names of its
attributes, each tagged with whether the attribute is callable. -/
structure PyInstrument where
  attrs : List (String × Bool)

/-- `hasattr(instrument, method)`: attribute-name lookup only; whether the
attribute is callable is not examined. -/
def PyInstrument.hasattr (inst : PyInstrument) (method : String) : Bool :=
  inst.attrs.any (fun a => a.1 == method)

/-- One entry of `Experiment.measurement_parameters`. -/
structure ParamIter where
  name : String
  unit : String
  method : String
  values : List ℚ

/-- `Experiment.add_parameter_iteration`: the `assert` checks of the
source.  `name`/`unit`/`instrument` type checks and the
`isinstance(values, (list, tuple))` check are enforced by the Lean types
of the arguments; the remaining runtime check is
`hasattr(instrument, method)`.  There is no check that `values` is
non-empty and no check that the attribute is callable.  On success the
new dimension is appended to `measurement_parameters`; on failure the
state is returned unchanged inside the error. -/
def add_parameter_iteration (st : List ParamIter) (name unit : String)
    (inst : PyInstrument) (method : String) (values : List ℚ) :
    Except String (List ParamIter) :=
  if inst.hasattr method then
    Except.ok (st ++ [⟨name, unit, method, values⟩])
  else
    Except.error "method should be a string representing the name of a method of the instrumnet class"

/-- `Worker.initialize_progress_counter`: `n_of_steps` is the product of
the per-dimension lengths times `single_measurement_steps`, accumulated
with `foldl` exactly as the source's running product. -/
def nOfSteps (lens : List ℕ) (sms : ℕ) : ℕ :=
  (lens.foldl (fun a b => a * b) 1) * sms

/-- `StepScanWorker.__init__`: `single_measurement_steps` is
`len(self.stage_positions) * self.averages`. -/
def singleMeasurementSteps (stagePositions : List ℚ) (averages : ℕ) : ℕ :=
  stagePositions.length * averages

/-- `Worker.increment_progress_counter`: increments `current_step` and
computes `progress = 100 * current_step / n_of_steps`. -/
def incrementProgress (c n : ℕ) : ℕ × ℚ :=
  (c + 1, 100 * ((c : ℚ) + 1) / (n : ℚ))

/-- An uninterrupted `Worker.work` run with dimension lengths `lens` where
every `measure()` call performs `sms` progress increments (as
`StepScanWorker.measure` does, once per stage position per average):
returns the final `current_step` together with the trace of
`(current_step, progress)` pairs after each increment. -/
def workerRun (lens : List ℕ) (sms : ℕ) : ℕ × List (ℕ × ℚ) :=
  (odometer lens).foldl
    (fun acc _ =>
      (List.range sms).foldl
        (fun (a : ℕ × List (ℕ × ℚ)) _ =>
          let r := incrementProgress a.1 (nOfSteps lens sms)
          (r.1, a.2 ++ [r]))
        acc)
    (0, [])

/-- The loop of `Worker.work`: before each coordinate tuple the soft-stop
flag is read (`if self.__shouldStop: break`); a tuple is processed
atomically (parameters set, then `measure()`).  `flag i` is the value the
flag holds at the check preceding the `i`-th tuple (0-based). -/
def workLoop (flag : ℕ → Bool) : List α → ℕ → List α
  | [], _ => []
  | t :: ts, i => if flag i then [] else t :: workLoop flag ts (i + 1)

/-- `Worker.work` including its epilogue: whether the loop exhausts the
tuples or breaks on the soft-stop flag, `finished` is emitted and the
state is set to `'complete'`.  Returns the executed tuples and the final
state string. -/
def workRun (tuples : List α) (flag : ℕ → Bool) : List α × String :=
  (workLoop flag tuples 0, "complete")

/- ------------------------------------------------------------------ -/
/- measurement/fastscan/threadmanager.py : running average             -/
/- ------------------------------------------------------------------ -/

/-- A `ProcessedCurve` over a fixed shared time axis: the value at each
time position, `none` standing for a missing value (`NaN`, or a
coordinate absent before xarray's outer-join alignment). -/
abbrev Curve : Type := List (Option ℚ)

/-- `xarray` mean over the `avg` dimension at one time position, with the
default `skipna=True`: the mean of the values present, `none` when no
curve has a value there. -/
def skipnaMeanAt (ws : List Curve) (t : ℕ) : Option ℚ :=
  let vs := ws.filterMap (fun c => c.getD t none)
  if vs.isEmpty then none else some (vs.sum / vs.length)

/-- `all_curves.mean('avg').dropna('time')` over a time axis of length
`T`, in the `Option` representation (a `none` entry is a dropped
position). -/
def skipnaMeanCurve (T : ℕ) (ws : List Curve) : Curve :=
  (List.range T).map (skipnaMeanAt ws)

/-- `self.all_curves`: `None` initially, a single 1-D curve after the
first delivery, a stack of curves along the `avg` dimension afterwards. -/
inductive AllCurves
  | noneYet : AllCurves
  | single (c : Curve) : AllCurves
  | multi (cs : List Curve) : AllCurves

/-- Positional slicing of a 1-D curve along its time axis
(`all_curves[-n_averages+1:]` when `all_curves` is still 1-D): time
positions before the slice start are absent from the result's axis, hence
`none` after the outer-join alignment of the subsequent `xr.concat`. -/
def sliceTime (N : ℕ) (c : Curve) : Curve :=
  let start := pyStart (1 - (N : ℤ)) c.length
  (List.range c.length).map (fun t => if t < start then none else c.getD t none)

/-- `FastScanThreadManager.on_processor_data` for window size
`N = n_averages` over a time axis of length `T`: returns the new
`all_curves` state and the emitted running average.  First delivery:
`all_curves` is the bare curve and `running_average` the curve itself
(`dropna` only removes `none` positions, which the `Option`
representation keeps as `none`).  Second delivery: `all_curves[-N+1:]`
slices the 1-D history along *time*; later deliveries slice the stack
along `avg`.  In both cases the new curve is concatenated and the mean
over `avg` (skipna) recomputed. -/
def on_processor_data (N T : ℕ) (st : AllCurves) (c : Curve) :
    AllCurves × Curve :=
  match st with
  | .noneYet => (.single c, c)
  | .single c1 =>
    let cs := [sliceTime N c1, c]
    (.multi cs, skipnaMeanCurve T cs)
  | .multi cs =>
    let cs' := pySliceFrom (1 - (N : ℤ)) cs ++ [c]
    (.multi cs', skipnaMeanCurve T cs')

/-- Deliver the curves `cs` to `on_processor_data` in order; returns the
final state and the last emitted running average. -/
def processAll (N T : ℕ) (cs : List Curve) : AllCurves × Curve :=
  cs.foldl (fun acc c => on_processor_data N T acc.1 c) (.noneYet, [])

/-- The running average as the claim states it: the elementwise mean of
exactly the last `N` curves, a time position being dropped (`none`) as
soon as any retained curve has no data there. -/
def claimedAverage (N T : ℕ) (cs : List Curve) : Curve :=
  let w := lastN N cs
  (List.range T).map (fun t =>
    if w.all (fun c => (c.getD t none).isSome) then
      some ((w.filterMap (fun c => c.getD t none)).sum / w.length)
    else none)

/- ------------------------------------------------------------------ -/
/- measurement/fastscan/threadmanager.py : shaker calibration          -/
/- ------------------------------------------------------------------ -/

/-- The probe-position sequence of `calibrate_shaker`:
`np.linspace(min*.7, max*.7, iterations//2)` concatenated with its own
reverse. -/
def calibPositions (iterations : ℕ) (tmin tmax : ℚ) : List ℚ :=
  let f := linspaceQ (7/10 * tmin) (7/10 * tmax) (iterations / 2)
  f ++ f.reverse

/-- The finite-difference slope list of `calibrate_shaker`:
`dy = |centers[i]-centers[i+1]|`, `dx = |positions[i]-positions[i+1]|`,
appending `dy/dx` when `dx != 0`. -/
def slopesOf (positions centers : List ℚ) : List ℚ :=
  (List.range (centers.length - 1)).filterMap (fun i =>
    let dy := |centers.getD i 0 - centers.getD (i + 1) 0|
    let dx := |positions.getD i 0 - positions.getD (i + 1) 0|
    if dx ≠ 0 then some (dy / dx) else none)

/-- First-pass outlier rejection: `[x for x in steps if
np.abs(x - mean) < 2 * std]`, embedded as the equivalent squared
comparison `(x - mean)^2 < 2^2 * var` (both sides of the source
comparison are non-negative reals). -/
def goodStepsOf (positions centers : List ℚ) : List ℚ :=
  let steps := slopesOf positions centers
  let m := listMean steps
  let v := listVar steps
  steps.filter (fun x => (x - m) ^ 2 < 2 ^ 2 * v)

/-- Exact least-squares fit of `lin(x, a, b) = a*x + b` to the points
`(xs i, ys i)`: the solution `scipy.optimize.curve_fit` converges to on a
linear model.  Returns `(a, b)`. -/
def linFit (xs ys : List ℚ) : ℚ × ℚ :=
  let n : ℚ := xs.length
  let sx := xs.sum
  let sy := ys.sum
  let sxx := (xs.map (fun x => x ^ 2)).sum
  let sxy := ((xs.zip ys).map (fun p => p.1 * p.2)).sum
  let a := (n * sxy - sx * sy) / (n * sxx - sx ^ 2)
  (a, (sy - a * sx) / n)

/-- Residual of point `i` from the first fit of
`calibrate_shaker`: `calib_positions[i] - lin(centers[i], *popt_)`. -/
def residAt (centers positions : List ℚ) (i : ℕ) : ℚ :=
  let ab := linFit centers positions
  positions.getD i 0 - (ab.1 * centers.getD i 0 + ab.2)

/-- `np.std(calib_positions - cpos_fit) ^ 2`: population variance of the
residual vector (the source recomputes the same value on every loop
iteration). -/
def residVarOf (centers positions : List ℚ) : ℚ :=
  listVar ((List.range centers.length).map (residAt centers positions))

/-- Second-pass retention test of point `i`:
`np.abs(calib_positions[i] - cpos_fit[i]) < 1.2 * std`, embedded as the
equivalent squared comparison. -/
def retainedAt (centers positions : List ℚ) (i : ℕ) : Bool :=
  decide ((residAt centers positions i) ^ 2 < (6/5) ^ 2 * residVarOf centers positions)

/-- The retained `(centers_good[i], calib_pos_good[i])` pairs of the
second pass. -/
def goodPointsOf (centers positions : List ℚ) : List (ℚ × ℚ) :=
  (List.range centers.length).filterMap (fun i =>
    if retainedAt centers positions i then
      some (centers.getD i 0, positions.getD i 0)
    else none)

/-- The second least-squares fit,
`curve_fit(lin, centers_good, calib_pos_good)`. -/
def secondFit (centers positions : List ℚ) : ℚ × ℚ :=
  let pts := goodPointsOf centers positions
  linFit (pts.map Prod.fst) (pts.map Prod.snd)

/-- Observable side effects of `FastScanThreadManager.calibrate_shaker`. -/
inductive Effect
  | settingWrite (category key : String) : Effect
  | createStreamer : Effect
  | measureShot : Effect
  | stageMove (pos : ℚ) : Effect
deriving DecidableEq

/-- `FastScanThreadManager.calibrate_shaker`.  The very first statement of
the source is `assert not self.streamerRunning`; only after it does the
routine write a setting, rebuild the streamer, acquire a reference shot,
move the stage through `calibPositions` (acquiring and fitting a shot at
each, the fitted center supplied here by the oracle `centerOf`), and run
the two-pass slope analysis.  Returns the effect trace performed together
with the outcome (the two candidate calibration numbers the source
prints: `np.mean(good_steps)` and `popt[0]`). -/
def calibrate_shaker (streamerRunning simulate : Bool) (iterations : ℕ)
    (tmin tmax : ℚ) (centerOf : ℚ → ℚ) :
    List Effect × Except String (ℚ × ℚ) :=
  if streamerRunning then
    ([], Except.error "Cannot run Shaker calibration while streamer is running")
  else
    let pre : List Effect :=
      [.settingWrite "fastscan - simulation" "center_position",
       .createStreamer, .measureShot]
    let cpos := calibPositions iterations tmin tmax
    let perPos := cpos.flatMap (fun p =>
      [Effect.stageMove p] ++
      (if simulate then [Effect.settingWrite "fastscan - simulation" "center_position"] else []) ++
      [Effect.measureShot])
    let centers := cpos.map centerOf
    (pre ++ perPos,
     Except.ok (listMean (goodStepsOf cpos centers), (secondFit centers cpos).1))

/- ------------------------------------------------------------------ -/
/- measurement/fastscan/threadmanager.py : n_processors setter         -/
/- ------------------------------------------------------------------ -/

/-- The method and property names defined in the body of
`FastScanThreadManager` in the source; `create_processors` is not among
them. -/
def fastScanManagerAttrs : List String :=
  ["project", "fit_autocorrelation", "calibrate_shaker", "on_timer",
   "wait", "create_streamer", "start_streamer", "stop_streamer",
   "on_streamer_data", "on_processor_data", "on_fit_result", "reset_data",
   "save_data", "close", "dark_control", "n_processors", "n_averages",
   "n_samples", "shaker_gain", "shaker_position_step",
   "shaker_ps_per_step", "stage_position"]

/-- The settings store, keyed by `(category, key)`. -/
def Settings : Type := String × String → ℤ

/-- `write_setting val category key`. -/
def writeSetting (st : Settings) (category key : String) (v : ℤ) : Settings :=
  fun k => if k = (category, key) then v else st k

/-- The `n_processors` property setter: asserts `val < os.cpu_count()`
(the `isinstance(val, int)` assert is enforced by the Lean type), then
persists the value with
`write_setting(val, 'fastscan', 'n_processors')`, then calls
`self.create_processors()` — which resolves via attribute lookup on
`FastScanThreadManager` and raises `AttributeError` when absent.  Returns
the settings store as left behind together with the outcome. -/
def nProcessorsSetter (cpuCount : ℤ) (val : ℤ) (st : Settings) :
    Settings × Except String Unit :=
  if val < cpuCount then
    let st' := writeSetting st "fastscan" "n_processors" val
    if fastScanManagerAttrs.contains "create_processors" then
      (st', Except.ok ())
    else
      (st', Except.error "AttributeError: create_processors")
  else
    (st, Except.error "Too many processors, cant be more than cpu count")

/-- A sample instrument for concrete evaluations: one callable attribute
`set_temp` and one non-callable attribute `serial_number`. -/
def sampleInstrument : PyInstrument :=
  ⟨[("set_temp", true), ("serial_number", false)]⟩

/-- A soft-stop flag raised during the first coordinate tuple: visible at
every flag check from index 1 on. -/
def stopFlagAfter1 : ℕ → Bool := fun j => decide (1 ≤ j)

/-- Concrete curve history for evaluations: three curves over a two-point
time axis, the second curve missing its second sample. -/
def cs3 : List Curve :=
  [[some 0, some 0], [some 2, none], [some 4, some 6]]

/- ------------------------------------------------------------------ -/
/- Theorems                                                            -/
/- ------------------------------------------------------------------ -/

/-- C1.  The code violates the memoization property.  On the sweep with
dimension lengths `[2,2,2]`, at the sixth coordinate tuple `[1,0,1]`
dimension 1's index is unchanged from the fifth tuple `[1,0,0]` (both
`0`), so the claim (and the source's own docstring, "Leaves unchanged the
parameter whose index hasn't changed on this iteration") demand no setter
call for dimension 1 there — `claimedCalls` gives `[2]` — yet
`set_parameters` invokes the setters of dimensions 1 and 2, because
`current_index[i] += 1` desynchronises the memo from the applied index
once an inner dimension wraps around. -/
theorem c1_memoization_code_bug :
    ((sweepRun [2, 2, 2]).getD 4 ([], [])).1 = [1, 0, 0] ∧
    ((sweepRun [2, 2, 2]).getD 5 ([], [])).1 = [1, 0, 1] ∧
    ((sweepRun [2, 2, 2]).getD 5 ([], [])).2 = [1, 2] ∧
    claimedCalls (some [1, 0, 0]) [1, 0, 1] = [2] := by
  refine ⟨?_, ?_, ?_, ?_⟩ <;> decide

/-- C2.  The code inverts the replace check: with an existing target,
`create_file` raises the name-collision `NameError` precisely when
replacement WAS requested (`replace=True`, the default), and silently
overwrites the file when replacement was not requested
(`replace=False`). -/
theorem c2_create_file_replace_inverted :
    create_file true true = Except.error "name already exists, please change." ∧
    create_file true false = Except.ok ["raw_data", "settings", "axes", "metadata"] :=
  ⟨rfl, rfl⟩

/-- C4, counterexample.  The claim is false on the code: a call passing an
empty list of values is accepted (the dimension is appended), and so is a
call binding `method` to a non-callable attribute — the source only
checks `hasattr`, never emptiness or callability. -/
theorem c4_counterexample :
    add_parameter_iteration [] "temperature" "K" sampleInstrument "set_temp" [] =
      Except.ok [⟨"temperature", "K", "set_temp", []⟩] ∧
    add_parameter_iteration [] "temperature" "K" sampleInstrument "serial_number" [1] =
      Except.ok [⟨"temperature", "K", "serial_number", [1]⟩] :=
  ⟨rfl, rfl⟩

/-- C4, amended.  `Experiment.add_parameter_iteration` succeeds — appending
exactly one dimension — if and only if `method` names an existing
attribute of the instrument (callable or not), and fails with a
validation error, appending nothing, otherwise; the `values` sequence may
be any list, including the empty one, and attribute lookup consults only
attribute names, never the callable flag. -/
theorem c4_add_parameter_iteration (st : List ParamIter) (name unit : String)
    (inst : PyInstrument) (method : String) (values : List ℚ) :
    (add_parameter_iteration st name unit inst method values =
        Except.ok (st ++ [⟨name, unit, method, values⟩]) ↔
      inst.hasattr method = true) ∧
    ((∃ e, add_parameter_iteration st name unit inst method values =
        Except.error e) ↔ inst.hasattr method = false) ∧
    inst.hasattr method = (inst.attrs.map Prod.fst).contains method := by
  refine ⟨?_, ?_, ?_⟩
  · unfold add_parameter_iteration
    cases h : inst.hasattr method <;> simp [h]
  · unfold add_parameter_iteration
    cases h : inst.hasattr method <;> simp [h]
  · obtain ⟨attrs⟩ := inst
    simp only [PyInstrument.hasattr]
    induction attrs with
    | nil => rfl
    | cons a t ih =>
      simp only [List.any_cons, List.map_cons, List.contains_cons, ih]
      cases h : (a.1 == method)
      · have h' : (method == a.1) = false := by
          simp only [beq_eq_false_iff_ne, ne_eq] at h ⊢
          exact fun e => h e.symm
        simp [h, h']
      · have h' : (method == a.1) = true := by
          simp only [beq_iff_eq] at h ⊢
          exact h.symm
        simp [h, h']

/-- C5.  With the streamer running, `calibrate_shaker` fails on its very
first statement (`assert not self.streamerRunning`) with the
resource-busy error, and its effect trace is empty: zero stage motions,
zero setting writes, no streamer reconstruction, no acquisitions. -/
theorem c5_calibrate_busy (simulate : Bool) (iterations : ℕ)
    (tmin tmax : ℚ) (centerOf : ℚ → ℚ) :
    calibrate_shaker true simulate iterations tmin tmax centerOf =
      ([], Except.error "Cannot run Shaker calibration while streamer is running") :=
  rfl

/-- C6, counterexample.  With a configured iteration count of 5 (and probe
range 0..10), the concatenated probe-position sequence has length 4, not
5: `np.linspace` is given `iterations // 2` points and the doubling
yields `2 * (iterations // 2)`, which differs from `iterations` for every
odd count. -/
theorem c6_counterexample :
    (calibPositions 5 0 10).length = 4 ∧ (calibPositions 5 0 10).length ≠ 5 := by
  refine ⟨?_, ?_⟩ <;> decide

/-- C10.  For every integer strictly below the hardware concurrency,
assigning the `n_processors` property first persists the value to the
settings store and then fails with `AttributeError`, because
`create_processors` is not among the attributes of
`FastScanThreadManager`; the persisted value is left in place (not rolled
back), so no valid processor-count assignment completes normally. -/
theorem c10_n_processors_setter (cpuCount val : ℤ) (st : Settings)
    (h : val < cpuCount) :
    (nProcessorsSetter cpuCount val st).2 =
        Except.error "AttributeError: create_processors" ∧
    (nProcessorsSetter cpuCount val st).1 ("fastscan", "n_processors") = val := by
  unfold nProcessorsSetter
  rw [if_pos h]
  have hc : fastScanManagerAttrs.contains "create_processors" = false := by decide
  rw [hc]
  exact ⟨by simp, by simp [writeSetting]⟩

/-- C10, witness: with 4 CPUs, assigning the valid count 2 persists 2 and
still errors. -/
theorem c10_witness :
    (2 : ℤ) < 4 ∧
    ((nProcessorsSetter 4 2 (fun _ => 0)).2 =
        Except.error "AttributeError: create_processors" ∧
      (nProcessorsSetter 4 2 (fun _ => 0)).1 ("fastscan", "n_processors") = 2) :=
  ⟨by decide, c10_n_processors_setter 4 2 (fun _ => 0) (by decide)⟩

/-- Once the soft-stop flag is visible from check index `n` on, the loop
of `Worker.work` entered at check index `i` processes at most `n - i`
further tuples. -/
theorem workLoop_length_le {α : Type} (flag : ℕ → Bool) (n : ℕ)
    (h : ∀ j, n ≤ j → flag j = true) :
    ∀ (ts : List α) (i : ℕ), (workLoop flag ts i).length ≤ n - i := by
  intro ts
  induction ts with
  | nil => intro i; simp [workLoop]
  | cons t ts ih =>
    intro i
    by_cases hf : flag i = true
    · simp [workLoop, hf]
    · have hin : i < n := by
        by_contra hge
        push_neg at hge
        exact hf (h i hge)
      have hrec := ih (i + 1)
      rw [workLoop, if_neg hf, List.length_cons]
      omega

/-- The tuples executed by the loop of `Worker.work` are an initial
segment of the planned tuples: a tuple either runs to completion or is
never entered. -/
theorem workLoop_eq_take {α : Type} (flag : ℕ → Bool) :
    ∀ (ts : List α) (i : ℕ),
      workLoop flag ts i = ts.take (workLoop flag ts i).length := by
  intro ts
  induction ts with
  | nil => intro i; simp [workLoop]
  | cons t ts ih =>
    intro i
    by_cases hf : flag i = true
    · simp [workLoop, hf]
    · rw [workLoop, if_neg hf, List.length_cons, List.take_succ_cons]
      exact congrArg (t :: ·) (ih (i + 1))

/-- C9.  Cancellation is cooperative and observed only at coordinate
tuple boundaries: if the soft-stop flag is visible at every check from
index `n` on (as when it is raised during the `n`-th tuple, tuples
numbered from 1), then at most `n + 1` tuples execute in total, the
executed tuples are an unbroken initial segment of the planned ones (no
tuple is interrupted mid-measurement — the flag is read only between
tuples), and the worker still reaches the terminal `'complete'` state. -/
theorem c9_cooperative_stop (tuples : List (List ℕ)) (flag : ℕ → Bool)
    (n : ℕ) (h : ∀ j, n ≤ j → flag j = true) :
    ((workRun tuples flag).1).length ≤ n + 1 ∧
    (workRun tuples flag).1 = tuples.take ((workRun tuples flag).1).length ∧
    (workRun tuples flag).2 = "complete" := by
  refine ⟨?_, workLoop_eq_take flag tuples 0, rfl⟩
  have hb := workLoop_length_le flag n h tuples 0
  simp only [workRun]
  omega

/-- C9, witness: a three-tuple sweep with the flag raised during tuple 1
executes only tuple 1 and completes. -/
theorem c9_witness :
    ((workRun [[0], [1], [2]] stopFlagAfter1).1).length ≤ 1 + 1 ∧
    (workRun [[0], [1], [2]] stopFlagAfter1).1 =
      ([[0], [1], [2]] : List (List ℕ)).take
        ((workRun [[0], [1], [2]] stopFlagAfter1).1).length ∧
    (workRun [[0], [1], [2]] stopFlagAfter1).2 = "complete" :=
  c9_cooperative_stop [[0], [1], [2]] stopFlagAfter1 1
    (fun _j hj => decide_eq_true hj)

/-- `np.linspace` produces exactly the requested number of samples. -/
theorem linspaceQ_length (a b : ℚ) (n : ℕ) : (linspaceQ a b n).length = n := by
  by_cases h0 : n = 0
  · simp [linspaceQ, h0]
  by_cases h1 : n = 1
  · simp [linspaceQ, h0, h1]
  simp only [linspaceQ, if_neg h0, if_neg h1, List.length_map,
    List.length_range]

/-- Consecutive samples of `np.linspace a b n` differ by the constant
spacing `(b - a) / (n - 1)`. -/
theorem linspaceQ_spacing (a b : ℚ) (n : ℕ) (i : ℕ) (h : i + 1 < n) :
    (linspaceQ a b n).getD (i + 1) 0 - (linspaceQ a b n).getD i 0 =
      (b - a) / ((n : ℚ) - 1) := by
  have h0 : ¬ n = 0 := by omega
  have h1 : ¬ n = 1 := by omega
  simp only [linspaceQ, if_neg h0, if_neg h1]
  have hl : ∀ j, j < n →
      (((List.range n).map
          (fun i : ℕ => a + (i : ℚ) * (b - a) / ((n : ℚ) - 1))).getD j 0)
        = a + (j : ℚ) * (b - a) / ((n : ℚ) - 1) := by
    intro j hj
    rw [List.getD_eq_getElem _ _
      (by simpa only [List.length_map, List.length_range] using hj)]
    simp only [List.getElem_map, List.getElem_range]
  rw [hl (i + 1) h, hl i (by omega)]
  push_cast
  ring

/-- C6, amended.  The probe-position sequence of `calibrate_shaker` is a
forward evenly spaced sequence over 70% of the projected time range
concatenated with its own reverse, and its total length is
`2 * (iterations // 2)` — twice the floor of half the configured
iteration count (which equals the iteration count only when that count
is even). -/
theorem c6_calibration_sequence (iterations : ℕ) (tmin tmax : ℚ) :
    calibPositions iterations tmin tmax =
      linspaceQ (7/10 * tmin) (7/10 * tmax) (iterations / 2) ++
        (linspaceQ (7/10 * tmin) (7/10 * tmax) (iterations / 2)).reverse ∧
    (calibPositions iterations tmin tmax).length = 2 * (iterations / 2) ∧
    ∀ i, i + 1 < iterations / 2 →
      (linspaceQ (7/10 * tmin) (7/10 * tmax) (iterations / 2)).getD (i + 1) 0 -
          (linspaceQ (7/10 * tmin) (7/10 * tmax) (iterations / 2)).getD i 0 =
        (7/10 * tmax - 7/10 * tmin) / (((iterations / 2 : ℕ) : ℚ) - 1) := by
  refine ⟨rfl, ?_, fun i hi => linspaceQ_spacing _ _ _ i hi⟩
  simp only [calibPositions, List.length_append, List.length_reverse,
    linspaceQ_length]
  omega

/-- Re-truncating an already truncated history commutes with appending:
the last `N` of (the last `N` of `l`, extended by `r`) are the last `N`
of `l ++ r`. -/
theorem lastN_lastN_append {α : Type} (N : ℕ) (l r : List α) :
    lastN N (lastN N l ++ r) = lastN N (l ++ r) := by
  unfold lastN
  rw [List.drop_append_eq_append_drop, List.drop_append_eq_append_drop,
    List.drop_drop]
  congr 2
  · simp only [List.length_append, List.length_drop]
    omega
  · simp only [List.length_append, List.length_drop]
    omega

/-- For window sizes `N ≥ 2`, the slice-and-append of
`on_processor_data`'s else-branch keeps exactly the last `N` curves. -/
theorem pySlice_append_eq_lastN {α : Type} (N : ℕ) (hN : 2 ≤ N)
    (acc : List α) (c : α) :
    pySliceFrom (1 - (N : ℤ)) acc ++ [c] = lastN N (acc ++ [c]) := by
  unfold pySliceFrom pyStart lastN
  have hneg : (1 - (N : ℤ)) < 0 := by omega
  have htn : (-(1 - (N : ℤ))).toNat = N - 1 := by omega
  rw [if_pos hneg, htn, List.drop_append_eq_append_drop]
  congr 2
  · simp only [List.length_append, List.length_cons, List.length_nil]
    omega
  · have : (acc ++ [c]).length - N - acc.length = 0 := by
      simp only [List.length_append, List.length_cons, List.length_nil]
      omega
    rw [this, List.drop_zero]

/-- Folding further deliveries into an existing multi-curve history keeps
exactly the last `N` of all curves seen (window size `N ≥ 2`), and the
last emitted average is the skipna mean of that window. -/
theorem processFold_multi (N T : ℕ) (hN : 2 ≤ N) :
    ∀ (rest acc : List Curve) (e : Curve), rest ≠ [] →
      rest.foldl (fun p c => on_processor_data N T p.1 c)
          (AllCurves.multi acc, e) =
        (AllCurves.multi (lastN N (acc ++ rest)),
         skipnaMeanCurve T (lastN N (acc ++ rest))) := by
  intro rest
  induction rest with
  | nil => intro acc e hne; exact absurd rfl hne
  | cons c rest ih =>
    intro acc e _
    show (rest.foldl (fun p c => on_processor_data N T p.1 c)
        (AllCurves.multi (pySliceFrom (1 - (N : ℤ)) acc ++ [c]),
         skipnaMeanCurve T (pySliceFrom (1 - (N : ℤ)) acc ++ [c]))) = _
    rw [pySlice_append_eq_lastN N hN]
    by_cases hr : rest = []
    · subst hr
      rw [List.foldl_nil]
    · rw [ih _ _ hr, lastN_lastN_append, List.append_assoc,
        List.singleton_append]

/-- The skipna mean at position `t` is missing exactly when every curve
of the window is missing there. -/
theorem skipnaMeanAt_eq_none_iff (ws : List Curve) (t : ℕ) :
    skipnaMeanAt ws t = none ↔ ∀ c ∈ ws, c.getD t none = none := by
  simp only [skipnaMeanAt]
  by_cases h : (ws.filterMap (fun c => c.getD t none)).isEmpty
  · rw [if_pos h]
    exact iff_of_true rfl (List.filterMap_eq_nil_iff.mp (List.isEmpty_iff.mp h))
  · rw [if_neg h]
    refine iff_of_false (by simp) (fun hall => ?_)
    exact h (List.isEmpty_iff.mpr (List.filterMap_eq_nil_iff.mpr hall))

/-- The emitted average curve reads back `skipnaMeanAt` at every in-range
time position. -/
theorem skipnaMeanCurve_getD (T : ℕ) (ws : List Curve) (t : ℕ) (h : t < T) :
    (skipnaMeanCurve T ws).getD t none = skipnaMeanAt ws t := by
  unfold skipnaMeanCurve
  rw [List.getD_eq_getElem _ _
    (by simpa only [List.length_map, List.length_range] using h)]
  simp only [List.getElem_map, List.getElem_range]

/-- C3, counterexample.  The claim fails on the code twice.  (1) With
window size `N = 1` and two fully aligned curves, the emitted average
after the second curve is the mean of both curves, not the last one:
`all_curves[-N+1:]` is the slice `[0:]` for `N = 1`, so the history is
never truncated.  (2) With `N = 2` and three curves of which the second
has no data at time position 1, the emitted average keeps that position
(xarray's mean skips NaN), whereas the claim requires it dropped. -/
theorem c3_counterexample :
    (processAll 1 1 [[some 0], [some 2]]).2 ≠
      claimedAverage 1 1 [[some 0], [some 2]] ∧
    (processAll 2 2 cs3).2 ≠ claimedAverage 2 2 cs3 := by
  constructor
  · have h1 : (processAll 1 1 [[some 0], [some 2]]).2 = [some 1] := by
      show skipnaMeanCurve 1 [sliceTime 1 [some 0], [some 2]] = [some 1]
      simp [skipnaMeanCurve, skipnaMeanAt, sliceTime, pyStart, List.range_succ]
    have h2 : claimedAverage 1 1 [[some 0], [some 2]] = [some 2] := by
      simp [claimedAverage, lastN, List.range_succ]
    rw [h1, h2]
    simp
  · have h1 : (processAll 2 2 cs3).2 = [some 3, some 6] := by
      show skipnaMeanCurve 2
          (pySliceFrom (1 - (2 : ℤ)) [sliceTime 2 [some 0, some 0], [some 2, none]]
            ++ [[some 4, some 6]]) = [some 3, some 6]
      simp [pySliceFrom, pyStart, sliceTime, skipnaMeanCurve, skipnaMeanAt,
        List.range_succ]
      norm_num
    have h2 : claimedAverage 2 2 cs3 = [some 3, none] := by
      simp [claimedAverage, cs3, lastN, List.range_succ]
      norm_num
    rw [h1, h2]
    simp

/-- C3, amended.  For every window size `N ≥ 2` and curves `c1..cn` with
`n > N` delivered to `on_processor_data`, the emitted running average
after `cn` is the elementwise skipna mean of exactly the last `N` curves
`c(n-N+1)..cn`: at each time position it is the mean of the values
present among the retained curves, and a time position is dropped
exactly when every retained curve has no data there (not when any one
does). -/
theorem c3_running_average (N T : ℕ) (cs : List Curve) (hN : 2 ≤ N)
    (hn : N < cs.length) :
    (processAll N T cs).2 = skipnaMeanCurve T (lastN N cs) ∧
    ∀ t, t < T →
      (((processAll N T cs).2).getD t none = none ↔
        ∀ c ∈ lastN N cs, c.getD t none = none) := by
  have hmain : (processAll N T cs).2 = skipnaMeanCurve T (lastN N cs) := by
    match cs with
    | [] => simp only [List.length_nil] at hn; omega
    | [c1] => simp only [List.length_cons, List.length_nil] at hn; omega
    | [c1, c2] => simp only [List.length_cons, List.length_nil] at hn; omega
    | c1 :: c2 :: c3 :: rest =>
      have hne : (c3 :: rest) ≠ [] := by simp
      show ((c3 :: rest).foldl (fun p c => on_processor_data N T p.1 c)
        (AllCurves.multi [sliceTime N c1, c2],
         skipnaMeanCurve T [sliceTime N c1, c2])).2 = _
      rw [processFold_multi N T hN _ _ _ hne]
      have hwin : lastN N ([sliceTime N c1, c2] ++ (c3 :: rest)) =
          lastN N (c1 :: c2 :: c3 :: rest) := by
        unfold lastN
        have hlen : ([sliceTime N c1, c2] ++ (c3 :: rest)).length =
            rest.length + 3 := by simp
        have hlen' : (c1 :: c2 :: c3 :: rest).length = rest.length + 3 := by
          simp
        have hpos : ∃ d, rest.length + 3 - N = d + 1 := by
          refine ⟨rest.length + 2 - N, ?_⟩
          simp only [List.length_cons] at hn
          omega
        obtain ⟨d, hd⟩ := hpos
        rw [hlen, hlen', hd]
        show List.drop (d + 1) (sliceTime N c1 :: c2 :: c3 :: rest) = _
        rw [List.drop_succ_cons, List.drop_succ_cons]
      rw [hwin]
  refine ⟨hmain, fun t ht => ?_⟩
  rw [hmain, skipnaMeanCurve_getD T _ t ht, skipnaMeanAt_eq_none_iff]

/-- C3, witness: window size 2, three curves — hypotheses hold and the
emitted average equals the skipna mean of the last two curves. -/
theorem c3_witness :
    2 ≤ 2 ∧ 2 < cs3.length ∧
    (processAll 2 2 cs3).2 = skipnaMeanCurve 2 (lastN 2 cs3) :=
  ⟨by decide, by decide, (c3_running_average 2 2 cs3 (by decide) (by decide)).1⟩

/-- Summing a constant over a list multiplies it by the length. -/
theorem sum_map_const {α : Type} (xs : List α) (c : ℕ) :
    (xs.map (fun _ => c)).sum = xs.length * c := by
  induction xs with
  | nil => simp
  | cons x t ih => simp [ih, Nat.succ_mul, Nat.add_comm]

/-- The odometer enumeration visits exactly `∏ Li` coordinate tuples. -/
theorem odometer_length (lens : List ℕ) :
    (odometer lens).length = lens.prod := by
  induction lens with
  | nil => rfl
  | cons l ls ih =>
    rw [odometer, List.length_flatMap]
    have hmap : List.map (List.length ∘ fun i => (odometer ls).map (i :: ·))
        (List.range l) = List.map (fun _ => (odometer ls).length)
        (List.range l) := by
      apply List.map_congr_left
      intro i _
      simp [Function.comp, List.length_map]
    rw [hmap, sum_map_const, List.length_range, ih, List.prod_cons]

/-- Unrolling the `sms` progress increments of one `measure()` call. -/
theorem progress_inner_fold (n : ℕ) : ∀ (m c0 : ℕ) (tr : List (ℕ × ℚ)),
    (List.range m).foldl
      (fun (a : ℕ × List (ℕ × ℚ)) _ =>
        let r := incrementProgress a.1 n
        (r.1, a.2 ++ [r])) (c0, tr)
    = (c0 + m, tr ++ (List.range m).map
        (fun i => (c0 + i + 1, 100 * (((c0 + i + 1 : ℕ) : ℚ)) / (n : ℚ)))) := by
  intro m
  induction m with
  | zero => intro c0 tr; simp
  | succ m ih =>
    intro c0 tr
    rw [List.range_succ, List.foldl_append, ih]
    simp only [List.foldl_cons, List.foldl_nil, incrementProgress,
      List.range_succ, List.map_append, List.map_cons, List.map_nil,
      List.append_assoc]
    rw [Prod.mk.injEq]
    refine ⟨by omega, ?_⟩
    have hcast : (100 : ℚ) * (((c0 + m : ℕ) : ℚ) + 1) / (n : ℚ) =
        100 * (((c0 + m + 1 : ℕ) : ℚ)) / (n : ℚ) := by
      push_cast
      ring
    rw [hcast]

/-- Unrolling a whole run: each of the `ts` coordinate tuples contributes
`sms` increments, so the trace is the increment sequence of length
`ts.length * sms`. -/
theorem progress_outer_fold (n sms : ℕ) :
    ∀ (ts : List (List ℕ)) (c0 : ℕ) (tr : List (ℕ × ℚ)),
      ts.foldl
        (fun acc _ =>
          (List.range sms).foldl
            (fun (a : ℕ × List (ℕ × ℚ)) _ =>
              let r := incrementProgress a.1 n
              (r.1, a.2 ++ [r])) acc) (c0, tr)
      = (c0 + ts.length * sms, tr ++ (List.range (ts.length * sms)).map
          (fun i => (c0 + i + 1, 100 * (((c0 + i + 1 : ℕ) : ℚ)) / (n : ℚ)))) := by
  intro ts
  induction ts with
  | nil => intro c0 tr; simp
  | cons t ts ih =>
    intro c0 tr
    rw [List.foldl_cons, progress_inner_fold, ih]
    have hsplit : (ts.length + 1) * sms = sms + ts.length * sms := by ring
    have hshift : (List.range (ts.length * sms)).map
        (fun i => (c0 + sms + i + 1,
          100 * (((c0 + sms + i + 1 : ℕ) : ℚ)) / (n : ℚ)))
        = (List.range (ts.length * sms)).map
          ((fun i => (c0 + i + 1, 100 * (((c0 + i + 1 : ℕ) : ℚ)) / (n : ℚ)))
            ∘ (fun i => sms + i)) := by
      apply List.map_congr_left
      intro i _
      simp only [Function.comp]
      have harg : c0 + (sms + i) + 1 = c0 + sms + i + 1 := by omega
      rw [harg]
    rw [List.length_cons, hsplit, List.range_add, List.map_append,
      List.map_map, ← hshift, List.append_assoc]
    rw [Prod.mk.injEq]
    exact ⟨by omega, rfl⟩

/-- The trace of `current_step` values after each increment of a run of
`total` increments is `1, 2, …, total`, so it contains `total` exactly
once. -/
theorem count_total_once (total : ℕ) (h : 1 ≤ total) :
    ((List.range total).map (· + 1)).count total = 1 := by
  have hinj : Function.Injective (fun x : ℕ => x + 1) := fun a b hab => by
    simpa using hab
  obtain ⟨k, rfl⟩ : ∃ k, total = k + 1 := ⟨total - 1, by omega⟩
  rw [List.count_map_of_injective _ _ hinj]
  rw [List.range_succ, List.count_append]
  have h0 : (List.range k).count k = 0 :=
    List.count_eq_zero_of_not_mem (by simp [List.mem_range])
  rw [h0]
  simp

/-- The sweep-plan product of non-empty dimensions is positive. -/
theorem one_le_prod_of_all (lens : List ℕ) (h : ∀ l ∈ lens, 1 ≤ l) :
    1 ≤ lens.prod := by
  induction lens with
  | nil => simp
  | cons l ls ih =>
    rw [List.prod_cons]
    have hl : 1 ≤ l := h l (by simp)
    have hls : 1 ≤ ls.prod := ih (fun x hx => h x (by simp [hx]))
    calc 1 = 1 * 1 := by omega
    _ ≤ l * ls.prod := Nat.mul_le_mul hl hls

/-- C8.  For a sweep plan with dimension lengths `lens` and
`single_measurement_steps = sms` (for `StepScanWorker`,
`len(stage_positions) * averages`): the total step count is
`sms × ∏ Li`; on an uninterrupted run the final `current_step` equals it;
the step trace is exactly `1..total`, so `current_step` reaches the total
exactly once; and every reported percentage equals
`100 * current_step / total_steps`. -/
theorem c8_progress_accounting (lens : List ℕ) (sms : ℕ)
    (h1 : ∀ l ∈ lens, 1 ≤ l) (h2 : 1 ≤ sms) :
    nOfSteps lens sms = lens.prod * sms ∧
    (workerRun lens sms).1 = nOfSteps lens sms ∧
    ((workerRun lens sms).2).map Prod.fst =
      (List.range (nOfSteps lens sms)).map (· + 1) ∧
    (((workerRun lens sms).2).map Prod.fst).count (nOfSteps lens sms) = 1 ∧
    ∀ p ∈ (workerRun lens sms).2,
      p.2 = 100 * ((p.1 : ℚ)) / ((nOfSteps lens sms : ℚ)) := by
  have hms : nOfSteps lens sms = lens.prod * sms := by
    unfold nOfSteps
    rw [← List.prod_eq_foldl]
  have htot : (odometer lens).length * sms = nOfSteps lens sms := by
    rw [odometer_length, hms]
  have hw : workerRun lens sms =
      ((odometer lens).length * sms,
        (List.range ((odometer lens).length * sms)).map
          (fun i => (i + 1,
            100 * (((i + 1 : ℕ) : ℚ)) / ((nOfSteps lens sms : ℚ))))) := by
    unfold workerRun
    rw [progress_outer_fold]
    simp
  refine ⟨hms, ?_, ?_, ?_, ?_⟩
  · rw [hw, htot]
  · rw [hw]
    simp only [htot, List.map_map]
    apply List.map_congr_left
    intro i _
    simp [Function.comp]
  · rw [hw]
    simp only [htot, List.map_map]
    have hc : (List.range (nOfSteps lens sms)).map
        (Prod.fst ∘ (fun i => ((i + 1 : ℕ),
          100 * (((i + 1 : ℕ) : ℚ)) / ((nOfSteps lens sms : ℚ))))) =
        (List.range (nOfSteps lens sms)).map (· + 1) := by
      apply List.map_congr_left
      intro i _
      simp [Function.comp]
    rw [hc]
    apply count_total_once
    rw [hms]
    exact Nat.mul_le_mul (one_le_prod_of_all lens h1) h2
  · intro p hp
    rw [hw] at hp
    simp only [List.mem_map, List.mem_range] at hp
    obtain ⟨i, _, rfl⟩ := hp
    rfl

/-- C8, witness: two dimensions of lengths 2 and 3 with 2 steps per
point — 12 total steps, final step 12, reached exactly once. -/
theorem c8_witness :
    (∀ l ∈ ([2, 3] : List ℕ), 1 ≤ l) ∧ 1 ≤ 2 ∧
    nOfSteps [2, 3] 2 = ([2, 3] : List ℕ).prod * 2 ∧
    (workerRun [2, 3] 2).1 = nOfSteps [2, 3] 2 ∧
    (((workerRun [2, 3] 2).2).map Prod.fst).count (nOfSteps [2, 3] 2) = 1 :=
  ⟨by decide, by decide,
   (c8_progress_accounting [2, 3] 2 (by decide) (by decide)).1,
   (c8_progress_accounting [2, 3] 2 (by decide) (by decide)).2.1,
   (c8_progress_accounting [2, 3] 2 (by decide) (by decide)).2.2.2.1⟩

/-- The squared comparison used in the embedding is equivalent to the
source's absolute-value-versus-scaled-standard-deviation comparison. -/
theorem sq_lt_iff_abs_lt_sqrt (a c v : ℝ) (hv : 0 ≤ v) (hc : 0 < c) :
    a ^ 2 < c ^ 2 * v ↔ |a| < c * Real.sqrt v := by
  have hcs : 0 ≤ c * Real.sqrt v := mul_nonneg hc.le (Real.sqrt_nonneg v)
  have hsq : (c * Real.sqrt v) ^ 2 = c ^ 2 * v := by
    rw [mul_pow, Real.sq_sqrt hv]
  constructor
  · intro h
    by_contra hle
    push_neg at hle
    have hpow := pow_le_pow_left₀ hcs hle 2
    rw [hsq, sq_abs] at hpow
    linarith
  · intro h
    have hpow := pow_lt_pow_left₀ h (abs_nonneg a) (two_ne_zero)
    rw [sq_abs, hsq] at hpow
    exact hpow

/-- `np.std(l)^2` is non-negative. -/
theorem listVar_nonneg (l : List ℚ) : 0 ≤ listVar l := by
  unfold listVar
  apply div_nonneg
  · apply List.sum_nonneg
    intro x hx
    simp only [List.mem_map] at hx
    obtain ⟨y, _, rfl⟩ := hx
    positivity
  · exact Nat.cast_nonneg _

/-- C7.  First-pass outlier rejection retains exactly the
finite-difference slopes whose absolute deviation from the slope mean is
less than 2 standard deviations; second-pass rejection retains exactly
the points whose absolute residual from the first least-squares fit of
position against center is less than 1.2 times the residual standard
deviation, and the refit runs over exactly those points. -/
theorem c7_outlier_rejection (positions centers : List ℚ) :
    (∀ x : ℚ, x ∈ goodStepsOf positions centers ↔
      x ∈ slopesOf positions centers ∧
      |(x : ℝ) - ((listMean (slopesOf positions centers) : ℚ) : ℝ)| <
        2 * Real.sqrt ((listVar (slopesOf positions centers) : ℚ) : ℝ)) ∧
    (∀ i : ℕ, retainedAt centers positions i = true ↔
      |((residAt centers positions i : ℚ) : ℝ)| <
        (6/5) * Real.sqrt ((residVarOf centers positions : ℚ) : ℝ)) ∧
    secondFit centers positions =
      linFit ((goodPointsOf centers positions).map Prod.fst)
        ((goodPointsOf centers positions).map Prod.snd) := by
  refine ⟨?_, ?_, rfl⟩
  · intro x
    simp only [goodStepsOf]
    rw [List.mem_filter]
    apply and_congr_right
    intro _
    rw [decide_eq_true_iff]
    have hv : (0 : ℝ) ≤ ((listVar (slopesOf positions centers) : ℚ) : ℝ) := by
      exact_mod_cast listVar_nonneg (slopesOf positions centers)
    rw [← sq_lt_iff_abs_lt_sqrt _ 2 _ hv (by norm_num)]
    constructor
    · intro h
      exact_mod_cast h
    · intro h
      exact_mod_cast h
  · intro i
    simp only [retainedAt]
    rw [decide_eq_true_iff]
    have hv : (0 : ℝ) ≤ ((residVarOf centers positions : ℚ) : ℝ) := by
      exact_mod_cast listVar_nonneg
        ((List.range centers.length).map (residAt centers positions))
    rw [← sq_lt_iff_abs_lt_sqrt _ (6/5) _ hv (by norm_num)]
    have hc65 : ((6 / 5 : ℚ) : ℝ) = (6 / 5 : ℝ) := by norm_num
    rw [← hc65]
    constructor
    · intro h
      exact_mod_cast h
    · intro h
      exact_mod_cast h

/-- C6, witness: with an even iteration count 4 and range 0..10 the
sequence has length `2 * (4 / 2)` and spacing `(7 - 0) / (2 - 1)`. -/
theorem c6_witness :
    (calibPositions 4 0 10).length = 2 * (4 / 2) ∧
    (linspaceQ (7/10 * 0) (7/10 * 10) (4 / 2)).getD (0 + 1) 0 -
        (linspaceQ (7/10 * 0) (7/10 * 10) (4 / 2)).getD 0 0 =
      (7/10 * 10 - 7/10 * 0) / (((4 / 2 : ℕ) : ℚ) - 1) :=
  ⟨(c6_calibration_sequence 4 0 10).2.1,
   (c6_calibration_sequence 4 0 10).2.2 0 (by decide)⟩
